import Mathlib

/-!
Verification of the SPDX license-expression parser and evaluator
(`src/parser.rs`, `src/expression.rs`).

The parser is a shunting-yard engine turning a token stream into a postfix
(reverse-Polish) node sequence; the evaluator is a stack machine over that
sequence.  Definitions below are a shallow embedding of the Rust source:
lists stand for the `SmallVec` stacks/queues (stack top at the head, queue
append at the tail), `Option`/`Except` stand for fallible paths, and Rust
panics (`unreachable!`, `unwrap`) are modelled by a distinguished error /
`none`.
-/

namespace Spdx

/-- A half-open byte-offset range `start..stop` in the source text
(`std::ops::Range` in the source). -/
structure Span where
  start : Nat
  stop : Nat
deriving DecidableEq

/-- The `as u32` cast used when the parser stores an atom's span
(`lt.span.start as u32..lt.span.end as u32`, parser.rs line 92). -/
def u32 (n : Nat) : Nat := n % 4294967296

/-- Span cast to `u32` bounds, as stored in `ExpressionReq`. -/
def u32Span (s : Span) : Span := ⟨u32 s.start, u32 s.stop⟩

/-- Tokens supplied by the external lexer (`lexer::Token`), as consumed by
`Expression::parse`; spec section 4.1. -/
inductive Token where
  | SPDX (id : String)
  | LicenseRef (doc_ref : Option String) (lic_ref : String)
  | Plus
  | With
  | And
  | Or
  | OpenParen
  | CloseParen
  | Exception (id : String)
deriving DecidableEq

/-- A lexed token with its span (`lexer::LexedToken`). -/
structure LexedToken where
  token : Token
  span : Span
deriving DecidableEq

/-- A single license term: a registered SPDX identifier with an or-later
flag, or a user-defined reference (`LicenseItem` in the source crate root,
as used by parser.rs lines 86-91 and 101-104; spec section 3). -/
inductive LicenseItem where
  | SPDX (id : String) (or_later : Bool)
  | Other (doc_ref : Option String) (lic_ref : String)
deriving DecidableEq

/-- A license requirement: a license term plus an optional exception
identifier (`LicenseReq`; spec section 3). -/
structure LicenseReq where
  license : LicenseItem
  exception : Option String
deriving DecidableEq

/-- A license requirement inside an expression, including the span where it
is located (`expression.rs` lines 7-11). -/
structure ExpressionReq where
  req : LicenseReq
  span : Span
deriving DecidableEq

/-- The joining operators supported by SPDX 2.1 (`expression.rs` lines
20-24). -/
inductive Operator where
  | And
  | Or
deriving DecidableEq

/-- A node of the postfix sequence (`ExprNode`, expression.rs lines
26-30). -/
inductive ExprNode where
  | Op (op : Operator)
  | Req (req : ExpressionReq)
deriving DecidableEq

/-- A parsed SPDX expression: the postfix node sequence plus the original
text retained for display (`Expression`, expression.rs lines 34-39). -/
structure Expression where
  expr : List ExprNode
  original : String
deriving DecidableEq

/-- Modelled from the spec: the error reasons of the `error` module, which
is not under `src/`.  Spec section 7 lists the kinds: lexical error,
unexpected-token (with the expected alternatives), unopened-parentheses,
unclosed-parentheses, empty-expression.  `Unreachable` additionally models
a Rust panic (`unreachable!` / `unwrap` on the parser's internal queue),
which the source treats as impossible. -/
inductive Reason where
  | Empty
  | Unexpected (expected : List String)
  | UnopenedParens
  | UnclosedParens
  | InvalidCharacters
  | Unreachable
deriving DecidableEq

/-- Modelled from the spec: a parse error carries the original text, a
byte-offset span and a reason (spec section 7; field use visible at
parser.rs lines 71-75, 198-202, 229-235, 242-247). -/
structure ParseError where
  original : String
  span : Span
  reason : Reason
deriving DecidableEq

instance {ε α : Type} [DecidableEq ε] [DecidableEq α] : DecidableEq (Except ε α) := by
  intro a b
  cases a with
  | error e1 =>
    cases b with
    | error e2 => exact decidable_of_iff (e1 = e2) (by simp)
    | ok v2 => exact isFalse (by simp)
  | ok v1 =>
    cases b with
    | error e2 => exact isFalse (by simp)
    | ok v2 => exact decidable_of_iff (v1 = v2) (by simp)

/-- The parser-internal operator kind (`enum Op` at parser.rs lines 28-35).
The derived Rust `Ord` orders the variants by declaration:
`And < Or < Open`. -/
inductive Op where
  | And
  | Or
  | Open
deriving DecidableEq

/-- Declaration index of an `Op` variant; the derived Rust `Ord` compares
these indices. -/
def Op.idx : Op → Nat
  | Op.And => 0
  | Op.Or => 1
  | Op.Open => 2

/-- The derived `<` of the Rust `Op` enum (`*top < new_op` at parser.rs
line 148). -/
def Op.lt (a b : Op) : Bool := a.idx < b.idx

/-- An operator-stack entry: operator kind plus span (`OpAndSpan`,
parser.rs lines 37-40). -/
structure OpAndSpan where
  op : Op
  span : Span
deriving DecidableEq

/-- The node(s) emitted into the output queue when an operator is popped
(`apply_op`, parser.rs lines 48-57).  `Open` is never passed by any caller
(the source marks that case `unreachable!`); it emits nothing here. -/
def opEmit : Op → List ExprNode
  | Op.And => [ExprNode.Op Operator.And]
  | Op.Or => [ExprNode.Op Operator.Or]
  | Op.Open => []

/-- The expected-token set attached to an unexpected-token error, keyed on
the previous accepted token (`make_err_for_token`, parser.rs lines
59-69). -/
def expectedFor : Option Token → List String
  | none | some Token.And | some Token.Or | some Token.OpenParen => ["<license>", "("]
  | some Token.CloseParen => ["AND", "OR"]
  | some (Token.Exception _) => ["AND", "OR", ")"]
  | some (Token.SPDX _) => ["AND", "OR", "WITH", ")", "+"]
  | some (Token.LicenseRef _ _) | some Token.Plus => ["AND", "OR", "WITH", ")"]
  | some Token.With => ["<exception>"]

/-- Model of `make_err_for_token` (parser.rs lines 59-76). -/
def make_err_for_token (original : String) (last : Option Token) (span : Span) : ParseError :=
  { original := original, span := span, reason := Reason.Unexpected (expectedFor last) }

/-- Previous-token category after which an atom (or `(`) may start:
`None | And | Or | OpenParen` (the match guards at parser.rs lines 83, 98,
170). -/
def isAtomStart : Option Token → Bool
  | none | some Token.And | some Token.Or | some Token.OpenParen => true
  | _ => false

/-- Previous-token category that terminates an atom:
`SPDX | LicenseRef | Plus | Exception | CloseParen` (the identical match
guards at parser.rs lines 133-137, 180-184 and 223-227). -/
def isAtomEnd : Option Token → Bool
  | some (Token.SPDX _) | some (Token.LicenseRef _ _) | some Token.Plus
  | some (Token.Exception _) | some Token.CloseParen => true
  | _ => false

/-- Previous-token category accepted before `WITH`:
`SPDX | LicenseRef | Plus` (parser.rs line 129). -/
def isWithPrev : Option Token → Bool
  | some (Token.SPDX _) | some (Token.LicenseRef _ _) | some Token.Plus => true
  | _ => false

/-- The `+` arm's in-place mutation of the most recently appended node:
sets the `or_later` flag of the trailing requirement, which must hold an
SPDX license item (`expr_queue.last_mut().unwrap()` match at parser.rs
lines 113-125); `none` models the `unwrap` / `unreachable!` panics. -/
def setLastOrLater : List ExprNode → Option (List ExprNode)
  | [] => none
  | [ExprNode.Op _] => none
  | [ExprNode.Req r] =>
    match r.req.license with
    | LicenseItem.SPDX id _ =>
      some [ExprNode.Req { r with req := { r.req with license := LicenseItem.SPDX id true } }]
    | LicenseItem.Other _ _ => none
  | x :: y :: rest => (setLastOrLater (y :: rest)).map (x :: ·)

/-- The exception arm's in-place mutation: sets the `exception` field of
the trailing requirement node (parser.rs lines 208-213); `none` models the
`unreachable!` panic. -/
def setLastException (exc : String) : List ExprNode → Option (List ExprNode)
  | [] => none
  | [ExprNode.Op _] => none
  | [ExprNode.Req r] =>
    some [ExprNode.Req { r with req := { r.req with exception := some exc } }]
  | x :: y :: rest => (setLastException exc (y :: rest)).map (x :: ·)

/-- The pop loop run before pushing a new `AND`/`OR` operator (parser.rs
lines 144-160): while the stack top is an operator (not an open-paren
marker) with `top < new_op` in the derived order, pop it and emit it into
the output queue; stop at an open-paren marker, a top that does not
satisfy `top < new_op`, or an empty stack.  Returns the remaining stack
and the extended queue. -/
def popOps (new_op : Op) : List OpAndSpan → List ExprNode → List OpAndSpan × List ExprNode
  | [], q => ([], q)
  | top :: rest, q =>
    if top.op = Op.Open then (top :: rest, q)
    else if Op.lt top.op new_op then popOps new_op rest (q ++ opEmit top.op)
    else (top :: rest, q)

/-- The `)` arm's pop loop (parser.rs lines 185-195): pop and emit
operators until an open-paren marker is found (discarded); `none` when the
stack empties without a marker (the unopened-parentheses case). -/
def closeParen : List OpAndSpan → List ExprNode → Option (List OpAndSpan × List ExprNode)
  | [], _ => none
  | top :: rest, q =>
    if top.op = Op.Open then some (rest, q)
    else closeParen rest (q ++ opEmit top.op)

/-- The end-of-stream drain of the operator stack (parser.rs lines
239-250): emit every remaining operator; fail with an
unclosed-parentheses error at the first open-paren marker's span. -/
def drain (original : String) : List OpAndSpan → List ExprNode → Except ParseError (List ExprNode)
  | [], q => Except.ok q
  | top :: rest, q =>
    if top.op = Op.Open then
      Except.error { original := original, span := top.span, reason := Reason.UnclosedParens }
    else drain original rest (q ++ opEmit top.op)

/-- The main loop of `Expression::parse` (parser.rs lines 79-250), as a
recursion over the token stream.  State: remaining tokens, the previous
accepted token (`last_token`), the operator stack (top at head) and the
output queue (append at tail).  The empty-list case is the
end-of-stream validation and drain (lines 221-250). -/
def parseLoop (original : String) :
    List LexedToken → Option Token → List OpAndSpan → List ExprNode →
    Except ParseError (List ExprNode)
  | [], last, op_stack, expr_queue =>
    if isAtomEnd last then drain original op_stack expr_queue
    else
      match last with
      | none =>
        Except.error { original := original, span := ⟨0, original.length⟩, reason := Reason.Empty }
      | _ =>
        Except.error
          (make_err_for_token original last ⟨original.length, original.length⟩)
  | lt :: rest, last, op_stack, expr_queue =>
    match lt.token with
    | Token.SPDX id =>
      if isAtomStart last then
        parseLoop original rest (some lt.token) op_stack
          (expr_queue ++
            [ExprNode.Req ⟨⟨LicenseItem.SPDX id false, none⟩, u32Span lt.span⟩])
      else Except.error (make_err_for_token original last lt.span)
    | Token.LicenseRef doc_ref lic_ref =>
      if isAtomStart last then
        parseLoop original rest (some lt.token) op_stack
          (expr_queue ++
            [ExprNode.Req ⟨⟨LicenseItem.Other doc_ref lic_ref, none⟩, u32Span lt.span⟩])
      else Except.error (make_err_for_token original last lt.span)
    | Token.Plus =>
      match last with
      | some (Token.SPDX _) =>
        match setLastOrLater expr_queue with
        | some q => parseLoop original rest (some lt.token) op_stack q
        | none =>
          Except.error { original := original, span := lt.span, reason := Reason.Unreachable }
      | _ => Except.error (make_err_for_token original last lt.span)
    | Token.With =>
      if isWithPrev last then parseLoop original rest (some lt.token) op_stack expr_queue
      else Except.error (make_err_for_token original last lt.span)
    | Token.Or =>
      if isAtomEnd last then
        parseLoop original rest (some lt.token)
          (⟨Op.Or, lt.span⟩ :: (popOps Op.Or op_stack expr_queue).1)
          (popOps Op.Or op_stack expr_queue).2
      else Except.error (make_err_for_token original last lt.span)
    | Token.And =>
      if isAtomEnd last then
        parseLoop original rest (some lt.token)
          (⟨Op.And, lt.span⟩ :: (popOps Op.And op_stack expr_queue).1)
          (popOps Op.And op_stack expr_queue).2
      else Except.error (make_err_for_token original last lt.span)
    | Token.OpenParen =>
      if isAtomStart last then
        parseLoop original rest (some lt.token) (⟨Op.Open, lt.span⟩ :: op_stack) expr_queue
      else Except.error (make_err_for_token original last lt.span)
    | Token.CloseParen =>
      if isAtomEnd last then
        match closeParen op_stack expr_queue with
        | some (s, q) => parseLoop original rest (some Token.CloseParen) s q
        | none =>
          Except.error { original := original, span := lt.span, reason := Reason.UnopenedParens }
      else Except.error (make_err_for_token original last lt.span)
    | Token.Exception exc =>
      match last with
      | some Token.With =>
        match setLastException exc expr_queue with
        | some q => parseLoop original rest (some lt.token) op_stack q
        | none =>
          Except.error { original := original, span := lt.span, reason := Reason.Unreachable }
      | _ => Except.error (make_err_for_token original last lt.span)

/-- Model of `Expression::parse` run on an already-lexed token stream, from the
initial state (no previous token, empty stack, empty queue). -/
def parseTokens (original : String) (toks : List LexedToken) : Except ParseError Expression :=
  match parseLoop original toks none [] [] with
  | Except.ok q => Except.ok ⟨q, original⟩
  | Except.error e => Except.error e

/-- The requirement nodes of a postfix node sequence, in sequence order
(the `filter_map` of `Expression::requirements`, expression.rs lines
44-49). -/
def requirementsList : List ExprNode → List ExpressionReq
  | [] => []
  | ExprNode.Req r :: rest => r :: requirementsList rest
  | ExprNode.Op _ :: rest => requirementsList rest

/-- Model of `Expression::requirements` (expression.rs lines 44-49): each license
requirement in the expression, without the joining operators. -/
def Expression.requirements (e : Expression) : List ExpressionReq :=
  requirementsList e.expr

/-- The traversal shared by both evaluation modes (expression.rs lines
61-80): one pass over the node sequence with a boolean stack (top at
head); a requirement pushes the predicate's verdict, an operator pops two
booleans `a` then `b` and pushes `a || b` / `a && b`.  `none` models the
`unwrap` panic on stack underflow. -/
def evalStep (allow : LicenseReq → Bool) :
    List ExprNode → List Bool → Option (List Bool)
  | [], st => some st
  | ExprNode.Req req :: rest, st => evalStep allow rest (allow req.req :: st)
  | ExprNode.Op Operator.Or :: rest, st =>
    match st with
    | a :: b :: st2 => evalStep allow rest ((a || b) :: st2)
    | _ => none
  | ExprNode.Op Operator.And :: rest, st =>
    match st with
    | a :: b :: st2 => evalStep allow rest ((a && b) :: st2)
    | _ => none

/-- Model of `Expression::evaluate` (expression.rs lines 55-83): run the traversal
and pop the final result; `none` models the final `unwrap` panic. -/
def Expression.evaluate (e : Expression) (allow : LicenseReq → Bool) : Option Bool :=
  (evalStep allow e.expr []).bind List.head?

/-- The failure-tracking traversal (expression.rs lines 100-123): same
stack discipline as `evalStep`, additionally appending every requirement
whose predicate verdict is false to the `failures` list. -/
def evalStepF (allow : LicenseReq → Bool) :
    List ExprNode → List Bool → List ExpressionReq →
    Option (List Bool × List ExpressionReq)
  | [], st, failures => some (st, failures)
  | ExprNode.Req req :: rest, st, failures =>
    evalStepF allow rest (allow req.req :: st)
      (if allow req.req then failures else failures ++ [req])
  | ExprNode.Op Operator.Or :: rest, st, failures =>
    match st with
    | a :: b :: st2 => evalStepF allow rest ((a || b) :: st2) failures
    | _ => none
  | ExprNode.Op Operator.And :: rest, st, failures =>
    match st with
    | a :: b :: st2 => evalStepF allow rest ((a && b) :: st2) failures
    | _ => none

/-- Model of `Expression::evaluate_with_failures` (expression.rs lines 90-130):
after the traversal, `if let Some(false) = result_stack.pop()` returns
the accumulated failures, otherwise success. -/
def Expression.evaluate_with_failures (e : Expression) (allow : LicenseReq → Bool) :
    Option (Except (List ExpressionReq) Unit) :=
  (evalStepF allow e.expr [] []).map fun sf =>
    match sf.1.head? with
    | some false => Except.error sf.2
    | _ => Except.ok ()

/-- The manual `PartialEq` of `ExpressionReq` (expression.rs lines 13-17):
compares only the requirement, ignoring the span. -/
def ExpressionReq.eq (a b : ExpressionReq) : Bool := a.req = b.req

/-- The derived `PartialEq` of `ExprNode` (expression.rs line 26), built
on `ExpressionReq.eq`. -/
def ExprNode.eq : ExprNode → ExprNode → Bool
  | ExprNode.Op o1, ExprNode.Op o2 => o1 = o2
  | ExprNode.Req r1, ExprNode.Req r2 => ExpressionReq.eq r1 r2
  | _, _ => false

/-- The manual `PartialEq` of `Expression` (expression.rs lines 163-174):
equal lengths and no position where the zipped node pair differs; the
original text plays no part. -/
def Expression.eq (a b : Expression) : Bool :=
  if a.expr.length ≠ b.expr.length then false
  else !((a.expr.zip b.expr).any fun p => !(ExprNode.eq p.1 p.2))

/-! ### The external lexer, modelled from the spec

The lexer is a collaborator of the parser and its implementation is not
under `src/` (spec section 1: out of scope, specified at its interface).
The model below follows spec sections 4.1 and 6: classified tokens with
half-open byte-offset spans, in source order; identifier legality is
assumed already checked by the catalog, which is likewise external — the
catalog model lists exactly the exception identifiers the spec's examples
use. -/

/-- Modelled from the spec: the external exception-identifier catalog,
restricted to the identifiers appearing in the spec. -/
def exception_ids : List String := ["LLVM-exception"]

/-- Modelled from the spec: characters that may appear inside an
identifier word (`idstring` plus the `:` of a `DocumentRef` pair). -/
def isIdChar (c : Char) : Bool := c.isAlphanum || c = '-' || c = '.' || c = ':'

/-- Modelled from the spec: classification of one identifier word into a
token (spec sections 4.1 and 6: keywords, `LicenseRef-` /
`DocumentRef-...:LicenseRef-...` references, exception ids from the
catalog, all remaining words as license ids).  Works on the word's
characters. -/
def classify (w : List Char) : Token :=
  if w.asString = "AND" then Token.And
  else if w.asString = "OR" then Token.Or
  else if w.asString = "WITH" then Token.With
  else if exception_ids.contains w.asString then Token.Exception w.asString
  else if List.isPrefixOf "DocumentRef-".toList w then
    match w.dropWhile (fun c => c != ':') with
    | ':' :: l =>
      if List.isPrefixOf "LicenseRef-".toList l && !l.contains ':' then
        Token.LicenseRef (some ((w.takeWhile (fun c => c != ':')).drop 12).asString)
          ((l.drop 11).asString)
      else Token.SPDX w.asString
    | _ => Token.SPDX w.asString
  else if List.isPrefixOf "LicenseRef-".toList w then Token.LicenseRef none ((w.drop 11).asString)
  else Token.SPDX w.asString

/-- Modelled from the spec: the lexer's scan over the characters of the
source, with `pos` the byte offset of the list head; emits classified
tokens with monotonically increasing half-open spans, and a lexical error
(surfaced through the same channel as parse errors) on a character that
fits no token.  `fuel` bounds the recursion structurally (every step
consumes at least one character, so any fuel larger than the character
count makes the fuel-exhausted branch unreachable). -/
def lexChars (original : String) : Nat → List Char → Nat → Except ParseError (List LexedToken)
  | 0, _, _ => Except.ok []
  | _ + 1, [], _ => Except.ok []
  | fuel + 1, c :: cs, pos =>
    if c = ' ' then lexChars original fuel cs (pos + 1)
    else if c = '(' then
      (lexChars original fuel cs (pos + 1)).map (⟨Token.OpenParen, ⟨pos, pos + 1⟩⟩ :: ·)
    else if c = ')' then
      (lexChars original fuel cs (pos + 1)).map (⟨Token.CloseParen, ⟨pos, pos + 1⟩⟩ :: ·)
    else if c = '+' then
      (lexChars original fuel cs (pos + 1)).map (⟨Token.Plus, ⟨pos, pos + 1⟩⟩ :: ·)
    else if isIdChar c then
      let w := c :: cs.takeWhile isIdChar
      (lexChars original fuel (cs.dropWhile isIdChar) (pos + w.length)).map
        (⟨classify w, ⟨pos, pos + w.length⟩⟩ :: ·)
    else
      Except.error
        { original := original, span := ⟨pos, pos + 1⟩, reason := Reason.InvalidCharacters }

/-- Modelled from the spec: the full lexer over the source text. -/
def lex (original : String) : Except ParseError (List LexedToken) :=
  lexChars original (original.data.length + 1) original.data 0

/-- Model of `Expression::parse` (parser.rs lines 20-259): lex, run the
shunting-yard loop, and package the output queue with the original
text. -/
def parse (original : String) : Except ParseError Expression :=
  match lex original with
  | Except.error e => Except.error e
  | Except.ok toks => parseTokens original toks

/-! ### Specification-side functions used to state the claims -/

/-- Replay a node sequence against a counter of stacked values: a
requirement pushes one value, an operator pops two and pushes one; `none`
on underflow.  Used to state the well-formed-RPN invariant (spec
section 3). -/
def stackCount : List ExprNode → Nat → Option Nat
  | [], n => some n
  | ExprNode.Req _ :: rest, n => stackCount rest (n + 1)
  | ExprNode.Op _ :: rest, n =>
    match n with
    | m + 2 => stackCount rest (m + 1)
    | _ => none

/-- Well-formed RPN: the replay never underflows and leaves exactly one
value (spec section 3). -/
def wellFormedRPN (nodes : List ExprNode) : Prop := stackCount nodes 0 = some 1

/-- Mirror of `setLastOrLater` on the projected requirement list. -/
def setLastOrLaterReq : List ExpressionReq → Option (List ExpressionReq)
  | [] => none
  | [r] =>
    match r.req.license with
    | LicenseItem.SPDX id _ =>
      some [{ r with req := { r.req with license := LicenseItem.SPDX id true } }]
    | LicenseItem.Other _ _ => none
  | x :: y :: rest => (setLastOrLaterReq (y :: rest)).map (x :: ·)

/-- Mirror of `setLastException` on the projected requirement list. -/
def setLastExceptionReq (exc : String) : List ExpressionReq → Option (List ExpressionReq)
  | [] => none
  | [r] => some [{ r with req := { r.req with exception := some exc } }]
  | x :: y :: rest => (setLastExceptionReq exc (y :: rest)).map (x :: ·)

/-- The license atoms of a token stream, in left-to-right source order,
with the `+` / exception suffix modifiers attached to the preceding atom
(spec sections 4.2 and 8).  Used to state C5. -/
def atomsOf : List LexedToken → List ExpressionReq → List ExpressionReq
  | [], acc => acc
  | lt :: rest, acc =>
    match lt.token with
    | Token.SPDX id =>
      atomsOf rest (acc ++ [⟨⟨LicenseItem.SPDX id false, none⟩, u32Span lt.span⟩])
    | Token.LicenseRef doc_ref lic_ref =>
      atomsOf rest (acc ++ [⟨⟨LicenseItem.Other doc_ref lic_ref, none⟩, u32Span lt.span⟩])
    | Token.Plus => atomsOf rest ((setLastOrLaterReq acc).getD acc)
    | Token.Exception exc => atomsOf rest ((setLastExceptionReq exc acc).getD acc)
    | _ => atomsOf rest acc

/-- Number of operator entries (non-markers) on the operator stack; used
in the parser invariant. -/
def opsCount : List OpAndSpan → Nat
  | [] => 0
  | top :: rest => (if top.op = Op.Open then 0 else 1) + opsCount rest

/-- Pending operand contributed by the previous-token category: `1` once
an atom has been completed or is being suffixed, `0` where an atom is
still expected. -/
def lastBal (last : Option Token) : Nat := if isAtomStart last then 0 else 1

/-- Parse two sources and compare the results with the code's
`PartialEq`; `none` when either parse fails.  Used to state C6. -/
def parseEq (x y : String) : Option Bool :=
  match parse x, parse y with
  | Except.ok a, Except.ok b => some (Expression.eq a b)
  | _, _ => none

/-- Token kinds other than `AND`, `OR` and `)`; used to state the amended
C3. -/
def notAfterClose : Token → Bool
  | Token.And | Token.Or | Token.CloseParen => false
  | _ => true

/-! ### Helper lemmas: the parser's RPN counting invariant -/

theorem stackCount_append (a b : List ExprNode) (n : Nat) :
    stackCount (a ++ b) n = (stackCount a n).bind fun m => stackCount b m := by
  induction a generalizing n with
  | nil => simp [stackCount]
  | cons x rest ih =>
    cases x with
    | Req r => simp [stackCount, ih]
    | Op o =>
      match n with
      | 0 => simp [stackCount]
      | 1 => simp [stackCount]
      | m + 2 => simp [stackCount, ih]

theorem stackCount_append_emit (o : Op) (ho : ¬o = Op.Open) (q : List ExprNode) (n : Nat)
    (h : stackCount q 0 = some (n + 2)) :
    stackCount (q ++ opEmit o) 0 = some (n + 1) := by
  cases o with
  | Open => exact absurd rfl ho
  | And => rw [stackCount_append, h]; simp [opEmit, stackCount]
  | Or => rw [stackCount_append, h]; simp [opEmit, stackCount]

theorem stackCount_append_req (r : ExpressionReq) (q : List ExprNode) (n m : Nat)
    (h : stackCount q n = some m) :
    stackCount (q ++ [ExprNode.Req r]) n = some (m + 1) := by
  rw [stackCount_append, h]; simp [stackCount]

theorem lastBal_atomStart (last : Option Token) (h : isAtomStart last = true) :
    lastBal last = 0 := by
  simp [lastBal, h]

theorem atomEnd_not_atomStart (last : Option Token) (h : isAtomEnd last = true) :
    isAtomStart last = false := by
  cases last with
  | none => simp [isAtomEnd] at h
  | some t => cases t <;> simp_all [isAtomEnd, isAtomStart]

theorem withPrev_not_atomStart (last : Option Token) (h : isWithPrev last = true) :
    isAtomStart last = false := by
  cases last with
  | none => simp [isWithPrev] at h
  | some t => cases t <;> simp_all [isWithPrev, isAtomStart]

theorem lastBal_atomEnd (last : Option Token) (h : isAtomEnd last = true) :
    lastBal last = 1 := by
  simp [lastBal, atomEnd_not_atomStart last h]

theorem popOps_count (new_op : Op) (s : List OpAndSpan) :
    ∀ q : List ExprNode, stackCount q 0 = some (opsCount s + 1) →
      stackCount (popOps new_op s q).2 0 = some (opsCount (popOps new_op s q).1 + 1) := by
  induction s with
  | nil => intro q h; simpa [popOps] using h
  | cons top rest ih =>
    intro q h
    by_cases hopen : top.op = Op.Open
    · simpa [popOps, hopen] using h
    · by_cases hlt : Op.lt top.op new_op
      · simp only [popOps, if_neg hopen, if_pos hlt]
        apply ih
        apply stackCount_append_emit top.op hopen q _
        rw [h]
        exact congrArg some (by simp [opsCount, hopen]; omega)
      · simpa [popOps, hopen, hlt] using h

theorem closeParen_count (s : List OpAndSpan) :
    ∀ q s2 q2, stackCount q 0 = some (opsCount s + 1) →
      closeParen s q = some (s2, q2) →
      stackCount q2 0 = some (opsCount s2 + 1) := by
  induction s with
  | nil => intro q s2 q2 _ hc; simp [closeParen] at hc
  | cons top rest ih =>
    intro q s2 q2 h hc
    by_cases hopen : top.op = Op.Open
    · simp only [closeParen, if_pos hopen, Option.some.injEq, Prod.mk.injEq] at hc
      obtain ⟨rfl, rfl⟩ := hc
      rw [h]
      exact congrArg some (by simp [opsCount, hopen])
    · simp only [closeParen, if_neg hopen] at hc
      apply ih _ _ _ _ hc
      apply stackCount_append_emit top.op hopen q _
      rw [h]
      exact congrArg some (by simp [opsCount, hopen]; omega)

theorem drain_count (original : String) (s : List OpAndSpan) :
    ∀ q out, stackCount q 0 = some (opsCount s + 1) →
      drain original s q = Except.ok out →
      stackCount out 0 = some 1 := by
  induction s with
  | nil =>
    intro q out h hd
    simp only [drain, Except.ok.injEq] at hd
    subst hd
    simpa [opsCount] using h
  | cons top rest ih =>
    intro q out h hd
    by_cases hopen : top.op = Op.Open
    · simp [drain, hopen] at hd
    · simp only [drain, if_neg hopen] at hd
      apply ih _ _ _ hd
      apply stackCount_append_emit top.op hopen q _
      rw [h]
      exact congrArg some (by simp [opsCount, hopen]; omega)

theorem setLastOrLater_stackCount :
    ∀ (q q2 : List ExprNode), setLastOrLater q = some q2 →
      ∀ n, stackCount q2 n = stackCount q n
  | [], _, h => by simp [setLastOrLater] at h
  | [ExprNode.Op o], _, h => by simp [setLastOrLater] at h
  | [ExprNode.Req r], q2, h => by
    cases hl : r.req.license with
    | SPDX id ol =>
      simp only [setLastOrLater, hl, Option.some.injEq] at h
      subst h
      intro n
      simp [stackCount]
    | Other d l => simp [setLastOrLater, hl] at h
  | x :: y :: rest, q2, h => by
    simp only [setLastOrLater, Option.map_eq_some'] at h
    obtain ⟨t, ht, rfl⟩ := h
    have ih := setLastOrLater_stackCount (y :: rest) t ht
    intro n
    cases x with
    | Req r => simp [stackCount, ih]
    | Op o =>
      match n with
      | 0 => simp [stackCount]
      | 1 => simp [stackCount]
      | m + 2 => simp [stackCount, ih]

theorem setLastException_stackCount (exc : String) :
    ∀ (q q2 : List ExprNode), setLastException exc q = some q2 →
      ∀ n, stackCount q2 n = stackCount q n
  | [], _, h => by simp [setLastException] at h
  | [ExprNode.Op o], _, h => by simp [setLastException] at h
  | [ExprNode.Req r], q2, h => by
    simp only [setLastException, Option.some.injEq] at h
    subst h
    intro n
    simp [stackCount]
  | x :: y :: rest, q2, h => by
    simp only [setLastException, Option.map_eq_some'] at h
    obtain ⟨t, ht, rfl⟩ := h
    have ih := setLastException_stackCount exc (y :: rest) t ht
    intro n
    cases x with
    | Req r => simp [stackCount, ih]
    | Op o =>
      match n with
      | 0 => simp [stackCount]
      | 1 => simp [stackCount]
      | m + 2 => simp [stackCount, ih]

/-- Main invariant of the shunting-yard loop: starting from a queue whose
replay count is the number of stacked operators plus the pending operand
of the previous-token category, a successful run leaves a queue whose
replay from zero is exactly one. -/
theorem parseLoop_ok_count (original : String) :
    ∀ (toks : List LexedToken) (last : Option Token) (s : List OpAndSpan)
      (q out : List ExprNode),
      stackCount q 0 = some (opsCount s + lastBal last) →
      parseLoop original toks last s q = Except.ok out →
      stackCount out 0 = some 1
  | [], last, s, q, out => by
    intro hinv hok
    simp only [parseLoop] at hok
    by_cases hend : isAtomEnd last
    · rw [if_pos hend] at hok
      rw [lastBal_atomEnd last hend] at hinv
      exact drain_count original s q out hinv hok
    · rw [if_neg hend] at hok
      cases last <;> simp at hok
  | lt :: rest, last, s, q, out => by
    intro hinv hok
    obtain ⟨tok, span⟩ := lt
    cases tok with
    | SPDX id =>
      simp only [parseLoop] at hok
      by_cases hstart : isAtomStart last
      · rw [if_pos hstart] at hok
        refine parseLoop_ok_count original rest _ _ _ out ?_ hok
        rw [lastBal_atomStart last hstart] at hinv
        have h2 := stackCount_append_req ⟨⟨LicenseItem.SPDX id false, none⟩, u32Span span⟩
          q 0 _ hinv
        rw [h2]
        exact congrArg some (by simp [lastBal, isAtomStart])
      · rw [if_neg hstart] at hok
        simp at hok
    | LicenseRef doc_ref lic_ref =>
      simp only [parseLoop] at hok
      by_cases hstart : isAtomStart last
      · rw [if_pos hstart] at hok
        refine parseLoop_ok_count original rest _ _ _ out ?_ hok
        rw [lastBal_atomStart last hstart] at hinv
        have h2 := stackCount_append_req ⟨⟨LicenseItem.Other doc_ref lic_ref, none⟩, u32Span span⟩
          q 0 _ hinv
        rw [h2]
        exact congrArg some (by simp [lastBal, isAtomStart])
      · rw [if_neg hstart] at hok
        simp at hok
    | Plus =>
      simp only [parseLoop] at hok
      split at hok
      · rename_i id2
        split at hok
        · rename_i q2 hset
          refine parseLoop_ok_count original rest _ _ _ out ?_ hok
          rw [setLastOrLater_stackCount q q2 hset 0, hinv]
          exact congrArg some (by simp [lastBal, isAtomStart])
        · simp at hok
      · simp at hok
    | With =>
      simp only [parseLoop] at hok
      by_cases hw : isWithPrev last
      · rw [if_pos hw] at hok
        refine parseLoop_ok_count original rest _ _ _ out ?_ hok
        rw [hinv, lastBal, withPrev_not_atomStart last hw]
        exact congrArg some (by simp [lastBal, isAtomStart])
      · rw [if_neg hw] at hok
        simp at hok
    | Or =>
      simp only [parseLoop] at hok
      by_cases hend : isAtomEnd last
      · rw [if_pos hend] at hok
        refine parseLoop_ok_count original rest _ _ _ out ?_ hok
        rw [lastBal_atomEnd last hend] at hinv
        have h2 := popOps_count Op.Or s q hinv
        rw [h2]
        exact congrArg some (by simp [lastBal, isAtomStart, opsCount]; omega)
      · rw [if_neg hend] at hok
        simp at hok
    | And =>
      simp only [parseLoop] at hok
      by_cases hend : isAtomEnd last
      · rw [if_pos hend] at hok
        refine parseLoop_ok_count original rest _ _ _ out ?_ hok
        rw [lastBal_atomEnd last hend] at hinv
        have h2 := popOps_count Op.And s q hinv
        rw [h2]
        exact congrArg some (by simp [lastBal, isAtomStart, opsCount]; omega)
      · rw [if_neg hend] at hok
        simp at hok
    | OpenParen =>
      simp only [parseLoop] at hok
      by_cases hstart : isAtomStart last
      · rw [if_pos hstart] at hok
        refine parseLoop_ok_count original rest _ _ _ out ?_ hok
        rw [hinv, lastBal_atomStart last hstart]
        exact congrArg some (by simp [lastBal, isAtomStart, opsCount])
      · rw [if_neg hstart] at hok
        simp at hok
    | CloseParen =>
      simp only [parseLoop] at hok
      by_cases hend : isAtomEnd last
      · rw [if_pos hend] at hok
        split at hok
        · rename_i s2 q2 hclose
          refine parseLoop_ok_count original rest _ _ _ out ?_ hok
          rw [lastBal_atomEnd last hend] at hinv
          have h2 := closeParen_count s q s2 q2 hinv hclose
          rw [h2]
          exact congrArg some (by simp [lastBal, isAtomStart])
        · simp at hok
      · rw [if_neg hend] at hok
        simp at hok
    | Exception exc =>
      simp only [parseLoop] at hok
      split at hok
      · split at hok
        · rename_i q2 hset
          refine parseLoop_ok_count original rest _ _ _ out ?_ hok
          rw [setLastException_stackCount exc q q2 hset 0, hinv]
          exact congrArg some (by simp [lastBal, isAtomStart])
        · simp at hok
      · simp at hok

/-- A token stream the parser accepts yields a well-formed RPN sequence. -/
theorem parseTokens_wellFormed (original : String) (toks : List LexedToken) (e : Expression)
    (h : parseTokens original toks = Except.ok e) : wellFormedRPN e.expr := by
  unfold parseTokens at h
  split at h
  · rename_i q hq
    obtain rfl : (⟨q, original⟩ : Expression) = e := by
      simpa using h
    exact parseLoop_ok_count original toks none [] [] q (by simp [stackCount, opsCount, lastBal, isAtomStart]) hq
  · simp at h

/-! ### Helper lemmas: the evaluator stack machine -/

/-- On a sequence whose replay count succeeds, the evaluation traversal
never underflows and the final stack length is the replayed count. -/
theorem evalStep_total (allow : LicenseReq → Bool) :
    ∀ (nodes : List ExprNode) (n m : Nat) (st : List Bool),
      stackCount nodes n = some m → st.length = n →
      ∃ st2, evalStep allow nodes st = some st2 ∧ st2.length = m := by
  intro nodes
  induction nodes with
  | nil =>
    intro n m st h hl
    refine ⟨st, by simp [evalStep], ?_⟩
    simp only [stackCount, Option.some.injEq] at h
    omega
  | cons x rest ih =>
    intro n m st h hl
    cases x with
    | Req r =>
      simp only [stackCount] at h
      obtain ⟨st2, h2, hl2⟩ := ih (n + 1) m (allow r.req :: st) h (by simp [hl])
      exact ⟨st2, by simpa [evalStep] using h2, hl2⟩
    | Op o =>
      cases n with
      | zero => simp [stackCount] at h
      | succ n1 =>
        cases n1 with
        | zero => simp [stackCount] at h
        | succ k =>
          simp only [stackCount] at h
          cases st with
          | nil => simp at hl
          | cons a st1 =>
            cases st1 with
            | nil => simp only [List.length_cons, List.length_nil] at hl; omega
            | cons b st' =>
              have hl' : st'.length = k := by
                simp only [List.length_cons] at hl; omega
              cases o with
              | Or =>
                obtain ⟨st2, h2, hl2⟩ := ih (k + 1) m ((a || b) :: st') h (by simp [hl'])
                exact ⟨st2, by simpa [evalStep] using h2, hl2⟩
              | And =>
                obtain ⟨st2, h2, hl2⟩ := ih (k + 1) m ((a && b) :: st') h (by simp [hl'])
                exact ⟨st2, by simpa [evalStep] using h2, hl2⟩

/-- The failure-tracking traversal is the plain traversal paired with the
list of requirements whose predicate verdict is false, in traversal
order. -/
theorem evalStepF_eq (allow : LicenseReq → Bool) :
    ∀ (nodes : List ExprNode) (st : List Bool) (fails : List ExpressionReq),
      evalStepF allow nodes st fails =
        (evalStep allow nodes st).map
          (fun st2 => (st2, fails ++ (requirementsList nodes).filter fun r => !allow r.req)) := by
  intro nodes
  induction nodes with
  | nil => intro st fails; simp [evalStepF, evalStep, requirementsList]
  | cons x rest ih =>
    intro st fails
    cases x with
    | Req r =>
      by_cases ha : allow r.req
      · simp [evalStepF, evalStep, requirementsList, ih, ha, List.filter]
      · simp only [evalStepF, evalStep, requirementsList, ih, ha, if_false,
          List.filter, Bool.not_false, eq_self_iff_true]
        simp [ha, List.append_assoc]
    | Op o =>
      cases o with
      | Or =>
        match st with
        | [] => simp [evalStepF, evalStep]
        | [a] => simp [evalStepF, evalStep]
        | a :: b :: st' => simp [evalStepF, evalStep, requirementsList, ih]
      | And =>
        match st with
        | [] => simp [evalStepF, evalStep]
        | [a] => simp [evalStepF, evalStep]
        | a :: b :: st' => simp [evalStepF, evalStep, requirementsList, ih]

/-- Evaluation under a constant predicate keeps the stack constant. -/
theorem evalStep_const (c : Bool) :
    ∀ (nodes : List ExprNode) (n m : Nat) (st : List Bool),
      stackCount nodes n = some m → st.length = n → (∀ b ∈ st, b = c) →
      ∃ st2, evalStep (fun _ => c) nodes st = some st2 ∧ st2.length = m ∧
        ∀ b ∈ st2, b = c := by
  intro nodes
  induction nodes with
  | nil =>
    intro n m st h hl hc
    refine ⟨st, by simp [evalStep], ?_, hc⟩
    simp only [stackCount, Option.some.injEq] at h
    omega
  | cons x rest ih =>
    intro n m st h hl hc
    cases x with
    | Req r =>
      simp only [stackCount] at h
      obtain ⟨st2, h2, hl2, hc2⟩ := ih (n + 1) m (c :: st) h (by simp [hl])
        (by intro b hb
            rw [List.mem_cons] at hb
            rcases hb with rfl | hb
            · rfl
            · exact hc b hb)
      exact ⟨st2, by simpa [evalStep] using h2, hl2, hc2⟩
    | Op o =>
      cases n with
      | zero => simp [stackCount] at h
      | succ n1 =>
        cases n1 with
        | zero => simp [stackCount] at h
        | succ k =>
          simp only [stackCount] at h
          cases st with
          | nil => simp at hl
          | cons a st1 =>
            cases st1 with
            | nil => simp only [List.length_cons, List.length_nil] at hl; omega
            | cons b st' =>
              have hl' : st'.length = k := by
                simp only [List.length_cons] at hl; omega
              have ha : a = c := hc a (by simp)
              have hb : b = c := hc b (by simp)
              have hor : ∀ y ∈ (a || b) :: st', y = c := by
                intro y hy
                rw [List.mem_cons] at hy
                rcases hy with rfl | hy
                · simp [ha, hb]
                · exact hc y (by simp [hy])
              have hand : ∀ y ∈ (a && b) :: st', y = c := by
                intro y hy
                rw [List.mem_cons] at hy
                rcases hy with rfl | hy
                · simp [ha, hb]
                · exact hc y (by simp [hy])
              cases o with
              | Or =>
                obtain ⟨st2, h2, hl2, hc2⟩ := ih (k + 1) m ((a || b) :: st') h
                  (by simp [hl']) hor
                exact ⟨st2, by simpa [evalStep] using h2, hl2, hc2⟩
              | And =>
                obtain ⟨st2, h2, hl2, hc2⟩ := ih (k + 1) m ((a && b) :: st') h
                  (by simp [hl']) hand
                exact ⟨st2, by simpa [evalStep] using h2, hl2, hc2⟩

/-- If every predicate verdict along the traversal is true and every
stacked value is true, every final stacked value is true. -/
theorem evalStep_allTrue (allow : LicenseReq → Bool) :
    ∀ (nodes : List ExprNode) (st st2 : List Bool),
      (∀ r ∈ requirementsList nodes, allow r.req = true) →
      (∀ b ∈ st, b = true) →
      evalStep allow nodes st = some st2 →
      ∀ b ∈ st2, b = true := by
  intro nodes
  induction nodes with
  | nil =>
    intro st st2 _ hst h
    simp only [evalStep, Option.some.injEq] at h
    subst h; exact hst
  | cons x rest ih =>
    intro st st2 hreq hst h
    cases x with
    | Req r =>
      have hr : allow r.req = true := hreq r (by simp [requirementsList])
      simp only [evalStep] at h
      refine ih (allow r.req :: st) st2 (fun r2 hr2 => hreq r2 ?_) ?_ h
      · simp [requirementsList, hr2]
      · intro b hb
        rw [List.mem_cons] at hb
        rcases hb with rfl | hb
        · exact hr
        · exact hst b hb
    | Op o =>
      cases st with
      | nil => cases o <;> simp [evalStep] at h
      | cons a st1 =>
        cases st1 with
        | nil => cases o <;> simp [evalStep] at h
        | cons b st' =>
          have ha : a = true := hst a (by simp)
          have hb : b = true := hst b (by simp)
          have hreq2 : ∀ r2 ∈ requirementsList rest, allow r2.req = true := by
            intro r2 hr2
            exact hreq r2 (by simpa [requirementsList] using hr2)
          cases o with
          | Or =>
            simp only [evalStep] at h
            refine ih ((a || b) :: st') st2 hreq2 ?_ h
            intro x hx
            rw [List.mem_cons] at hx
            rcases hx with rfl | hx
            · simp [ha, hb]
            · exact hst x (by simp [hx])
          | And =>
            simp only [evalStep] at h
            refine ih ((a && b) :: st') st2 hreq2 ?_ h
            intro x hx
            rw [List.mem_cons] at hx
            rcases hx with rfl | hx
            · simp [ha, hb]
            · exact hst x (by simp [hx])

/-! ### Helper lemmas: requirement nodes through the parser -/

theorem requirementsList_append (a b : List ExprNode) :
    requirementsList (a ++ b) = requirementsList a ++ requirementsList b := by
  induction a with
  | nil => simp [requirementsList]
  | cons x rest ih =>
    cases x with
    | Req r => simp [requirementsList, ih]
    | Op o => simp [requirementsList, ih]

theorem requirementsList_emit (o : Op) (q : List ExprNode) :
    requirementsList (q ++ opEmit o) = requirementsList q := by
  cases o <;> simp [opEmit, requirementsList_append, requirementsList]

theorem popOps_reqs (new_op : Op) (s : List OpAndSpan) :
    ∀ q, requirementsList (popOps new_op s q).2 = requirementsList q := by
  induction s with
  | nil => intro q; simp [popOps]
  | cons top rest ih =>
    intro q
    by_cases hopen : top.op = Op.Open
    · simp [popOps, hopen]
    · by_cases hlt : Op.lt top.op new_op
      · simp only [popOps, if_neg hopen, if_pos hlt]
        rw [ih, requirementsList_emit]
      · simp [popOps, hopen, hlt]

theorem closeParen_reqs (s : List OpAndSpan) :
    ∀ q s2 q2, closeParen s q = some (s2, q2) → requirementsList q2 = requirementsList q := by
  induction s with
  | nil => intro q s2 q2 hc; simp [closeParen] at hc
  | cons top rest ih =>
    intro q s2 q2 hc
    by_cases hopen : top.op = Op.Open
    · simp only [closeParen, if_pos hopen, Option.some.injEq, Prod.mk.injEq] at hc
      obtain ⟨rfl, rfl⟩ := hc
      rfl
    · simp only [closeParen, if_neg hopen] at hc
      rw [ih _ _ _ hc, requirementsList_emit]

theorem drain_reqs (original : String) (s : List OpAndSpan) :
    ∀ q out, drain original s q = Except.ok out → requirementsList out = requirementsList q := by
  induction s with
  | nil =>
    intro q out hd
    simp only [drain, Except.ok.injEq] at hd
    subst hd; rfl
  | cons top rest ih =>
    intro q out hd
    by_cases hopen : top.op = Op.Open
    · simp [drain, hopen] at hd
    · simp only [drain, if_neg hopen] at hd
      rw [ih _ _ hd, requirementsList_emit]

theorem setLastOrLater_reqs :
    ∀ (q q2 : List ExprNode), setLastOrLater q = some q2 →
      setLastOrLaterReq (requirementsList q) = some (requirementsList q2)
  | [], _, h => by simp [setLastOrLater] at h
  | [ExprNode.Op o], _, h => by simp [setLastOrLater] at h
  | [ExprNode.Req r], q2, h => by
    cases hl : r.req.license with
    | SPDX id ol =>
      simp only [setLastOrLater, hl, Option.some.injEq] at h
      subst h
      simp [requirementsList, setLastOrLaterReq, hl]
    | Other d l => simp [setLastOrLater, hl] at h
  | x :: y :: rest, q2, h => by
    simp only [setLastOrLater, Option.map_eq_some'] at h
    obtain ⟨t, ht, rfl⟩ := h
    have ih := setLastOrLater_reqs (y :: rest) t ht
    cases x with
    | Op o => simpa [requirementsList] using ih
    | Req r =>
      cases hr : requirementsList (y :: rest) with
      | nil => rw [hr] at ih; simp [setLastOrLaterReq] at ih
      | cons z zs =>
        rw [hr] at ih
        simp only [requirementsList, hr]
        rw [show setLastOrLaterReq (r :: z :: zs) = (setLastOrLaterReq (z :: zs)).map (r :: ·)
          from rfl]
        rw [ih]
        rfl

theorem setLastException_reqs (exc : String) :
    ∀ (q q2 : List ExprNode), setLastException exc q = some q2 →
      setLastExceptionReq exc (requirementsList q) = some (requirementsList q2)
  | [], _, h => by simp [setLastException] at h
  | [ExprNode.Op o], _, h => by simp [setLastException] at h
  | [ExprNode.Req r], q2, h => by
    simp only [setLastException, Option.some.injEq] at h
    subst h
    simp [requirementsList, setLastExceptionReq]
  | x :: y :: rest, q2, h => by
    simp only [setLastException, Option.map_eq_some'] at h
    obtain ⟨t, ht, rfl⟩ := h
    have ih := setLastException_reqs exc (y :: rest) t ht
    cases x with
    | Op o => simpa [requirementsList] using ih
    | Req r =>
      cases hr : requirementsList (y :: rest) with
      | nil => rw [hr] at ih; simp [setLastExceptionReq] at ih
      | cons z zs =>
        rw [hr] at ih
        simp only [requirementsList, hr]
        rw [show setLastExceptionReq exc (r :: z :: zs) =
          (setLastExceptionReq exc (z :: zs)).map (r :: ·) from rfl]
        rw [ih]
        rfl

/-- A successful run of the shunting-yard loop emits exactly the license
atoms of the remaining token stream, appended after the requirement nodes
already in the queue, modifiers applied. -/
theorem parseLoop_reqs (original : String) :
    ∀ (toks : List LexedToken) (last : Option Token) (s : List OpAndSpan)
      (q out : List ExprNode),
      parseLoop original toks last s q = Except.ok out →
      requirementsList out = atomsOf toks (requirementsList q)
  | [], last, s, q, out => by
    intro hok
    simp only [parseLoop] at hok
    by_cases hend : isAtomEnd last
    · rw [if_pos hend] at hok
      rw [drain_reqs original s q out hok]
      rfl
    · rw [if_neg hend] at hok
      cases last <;> simp at hok
  | lt :: rest, last, s, q, out => by
    intro hok
    obtain ⟨tok, span⟩ := lt
    cases tok with
    | SPDX id =>
      simp only [parseLoop] at hok
      by_cases hstart : isAtomStart last
      · rw [if_pos hstart] at hok
        rw [parseLoop_reqs original rest _ _ _ out hok]
        simp [atomsOf, requirementsList_append, requirementsList]
      · rw [if_neg hstart] at hok; simp at hok
    | LicenseRef doc_ref lic_ref =>
      simp only [parseLoop] at hok
      by_cases hstart : isAtomStart last
      · rw [if_pos hstart] at hok
        rw [parseLoop_reqs original rest _ _ _ out hok]
        simp [atomsOf, requirementsList_append, requirementsList]
      · rw [if_neg hstart] at hok; simp at hok
    | Plus =>
      simp only [parseLoop] at hok
      split at hok
      · split at hok
        · rename_i q2 hset
          rw [parseLoop_reqs original rest _ _ _ out hok]
          simp [atomsOf, setLastOrLater_reqs q q2 hset]
        · simp at hok
      · simp at hok
    | With =>
      simp only [parseLoop] at hok
      by_cases hw : isWithPrev last
      · rw [if_pos hw] at hok
        rw [parseLoop_reqs original rest _ _ _ out hok]
        rfl
      · rw [if_neg hw] at hok; simp at hok
    | Or =>
      simp only [parseLoop] at hok
      by_cases hend : isAtomEnd last
      · rw [if_pos hend] at hok
        rw [parseLoop_reqs original rest _ _ _ out hok, popOps_reqs]
        rfl
      · rw [if_neg hend] at hok; simp at hok
    | And =>
      simp only [parseLoop] at hok
      by_cases hend : isAtomEnd last
      · rw [if_pos hend] at hok
        rw [parseLoop_reqs original rest _ _ _ out hok, popOps_reqs]
        rfl
      · rw [if_neg hend] at hok; simp at hok
    | OpenParen =>
      simp only [parseLoop] at hok
      by_cases hstart : isAtomStart last
      · rw [if_pos hstart] at hok
        rw [parseLoop_reqs original rest _ _ _ out hok]
        rfl
      · rw [if_neg hstart] at hok; simp at hok
    | CloseParen =>
      simp only [parseLoop] at hok
      by_cases hend : isAtomEnd last
      · rw [if_pos hend] at hok
        split at hok
        · rename_i s2 q2 hclose
          rw [parseLoop_reqs original rest _ _ _ out hok,
            closeParen_reqs s q s2 q2 hclose]
          rfl
        · simp at hok
      · rw [if_neg hend] at hok; simp at hok
    | Exception exc =>
      simp only [parseLoop] at hok
      split at hok
      · split at hok
        · rename_i q2 hset
          rw [parseLoop_reqs original rest _ _ _ out hok]
          simp [atomsOf, setLastException_reqs exc q q2 hset]
        · simp at hok
      · simp at hok

/-- A well-formed sequence evaluates to a single stacked boolean. -/
theorem wf_evalStep_single (nodes : List ExprNode) (hwf : wellFormedRPN nodes)
    (allow : LicenseReq → Bool) : ∃ b, evalStep allow nodes [] = some [b] := by
  obtain ⟨st2, h2, hl2⟩ := evalStep_total allow nodes 0 1 [] hwf rfl
  cases st2 with
  | nil => simp at hl2
  | cons b t =>
    cases t with
    | nil => exact ⟨b, h2⟩
    | cons c t2 => simp at hl2

/-! ### The claims -/

/-- Claim C1 (amended).  When an `AND`/`OR` token is accepted, the pop loop
run before the new operator is pushed removes exactly the maximal top
segment of stack entries that are operators (not open-paren markers) of
*strictly greater* precedence than the new operator (`top < new_op` in the
derived order `And < Or < Open`), emitting them into the output queue in
pop order; it stops at an open-paren marker, at an operator of equal or
lower precedence, or at an empty stack.  In particular, at equal
precedence (the second `OR` in `"A OR B OR C"`) the stacked operator is
*not* popped: the new operator is pushed on top of it, producing the
right-nested postfix `A B C OR OR`. -/
theorem claim_C1 (new_op : Op) (s : List OpAndSpan) (q : List ExprNode) :
    popOps new_op s q =
      (s.dropWhile fun x => !(x.op == Op.Open) && Op.lt x.op new_op,
       q ++ ((s.takeWhile fun x => !(x.op == Op.Open) && Op.lt x.op new_op).map
         fun x => opEmit x.op).flatten) := by
  induction s generalizing q with
  | nil => simp [popOps]
  | cons top rest ih =>
    by_cases hopen : top.op = Op.Open
    · simp [popOps, hopen, List.dropWhile_cons, List.takeWhile_cons]
    · by_cases hlt : Op.lt top.op new_op = true
      · simp only [popOps, if_neg hopen, if_pos hlt, ih]
        simp [List.dropWhile_cons, List.takeWhile_cons, beq_iff_eq, hopen, hlt,
          List.append_assoc]
      · have hlt' : Op.lt top.op new_op = false := by
          cases hv : Op.lt top.op new_op
          · rfl
          · exact absurd hv hlt
        simp [popOps, hopen, hlt', List.dropWhile_cons, List.takeWhile_cons]

/-- Claim C1 counterexample to the claim as stated: at equal precedence the
operator already on the stack is *not* popped before the new one is
pushed.  Concretely, when the second `OR` of `"MIT OR ISC OR 0BSD"`
arrives, the pop loop leaves the first `OR` on the stack and the queue
untouched, and the parse result is the right-nested postfix
`MIT ISC 0BSD OR OR`, not the left-nested `MIT ISC OR 0BSD OR` that the
claimed pop-on-equal-precedence rule would produce. -/
theorem claim_C1_counterexample :
    popOps Op.Or [⟨Op.Or, ⟨4, 6⟩⟩]
        [ExprNode.Req ⟨⟨LicenseItem.SPDX "MIT" false, none⟩, ⟨0, 3⟩⟩,
         ExprNode.Req ⟨⟨LicenseItem.SPDX "ISC" false, none⟩, ⟨7, 10⟩⟩]
      = ([⟨Op.Or, ⟨4, 6⟩⟩],
         [ExprNode.Req ⟨⟨LicenseItem.SPDX "MIT" false, none⟩, ⟨0, 3⟩⟩,
          ExprNode.Req ⟨⟨LicenseItem.SPDX "ISC" false, none⟩, ⟨7, 10⟩⟩]) ∧
    parseTokens "MIT OR ISC OR 0BSD"
        [⟨Token.SPDX "MIT", ⟨0, 3⟩⟩, ⟨Token.Or, ⟨4, 6⟩⟩, ⟨Token.SPDX "ISC", ⟨7, 10⟩⟩,
         ⟨Token.Or, ⟨11, 13⟩⟩, ⟨Token.SPDX "0BSD", ⟨14, 18⟩⟩]
      = Except.ok
          ⟨[ExprNode.Req ⟨⟨LicenseItem.SPDX "MIT" false, none⟩, ⟨0, 3⟩⟩,
            ExprNode.Req ⟨⟨LicenseItem.SPDX "ISC" false, none⟩, ⟨7, 10⟩⟩,
            ExprNode.Req ⟨⟨LicenseItem.SPDX "0BSD" false, none⟩, ⟨14, 18⟩⟩,
            ExprNode.Op Operator.Or, ExprNode.Op Operator.Or], "MIT OR ISC OR 0BSD"⟩ ∧
    ¬parseTokens "MIT OR ISC OR 0BSD"
        [⟨Token.SPDX "MIT", ⟨0, 3⟩⟩, ⟨Token.Or, ⟨4, 6⟩⟩, ⟨Token.SPDX "ISC", ⟨7, 10⟩⟩,
         ⟨Token.Or, ⟨11, 13⟩⟩, ⟨Token.SPDX "0BSD", ⟨14, 18⟩⟩]
      = Except.ok
          ⟨[ExprNode.Req ⟨⟨LicenseItem.SPDX "MIT" false, none⟩, ⟨0, 3⟩⟩,
            ExprNode.Req ⟨⟨LicenseItem.SPDX "ISC" false, none⟩, ⟨7, 10⟩⟩,
            ExprNode.Op Operator.Or,
            ExprNode.Req ⟨⟨LicenseItem.SPDX "0BSD" false, none⟩, ⟨14, 18⟩⟩,
            ExprNode.Op Operator.Or], "MIT OR ISC OR 0BSD"⟩ := by
  decide

/-- Claim C2.  Every expression the parser accepts is well-formed RPN:
replaying it (one push per requirement, pop-two/push-one per operator)
never underflows and leaves exactly one value; consequently every
evaluation (plain and failure-tracking) completes — the modelled `unwrap`
panics (`none`) are unreachable — with exactly one boolean as result. -/
theorem claim_C2 (original : String) (toks : List LexedToken) (e : Expression)
    (h : parseTokens original toks = Except.ok e) :
    wellFormedRPN e.expr ∧
    ∀ allow : LicenseReq → Bool, ∃ b : Bool,
      evalStep allow e.expr [] = some [b] ∧
      e.evaluate allow = some b ∧
      ∃ res, e.evaluate_with_failures allow = some res := by
  have hwf := parseTokens_wellFormed original toks e h
  refine ⟨hwf, fun allow => ?_⟩
  obtain ⟨b, hb⟩ := wf_evalStep_single e.expr hwf allow
  refine ⟨b, hb, by simp [Expression.evaluate, hb], ?_⟩
  simp only [Expression.evaluate_with_failures, evalStepF_eq, hb, Option.map_some']
  exact ⟨_, rfl⟩

/-- Claim C2 witness: a concrete accepted token stream and its well-formed
parse. -/
theorem claim_C2_witness :
    parseTokens "MIT AND ISC"
        [⟨Token.SPDX "MIT", ⟨0, 3⟩⟩, ⟨Token.And, ⟨4, 7⟩⟩, ⟨Token.SPDX "ISC", ⟨8, 11⟩⟩]
      = Except.ok
          ⟨[ExprNode.Req ⟨⟨LicenseItem.SPDX "MIT" false, none⟩, ⟨0, 3⟩⟩,
            ExprNode.Req ⟨⟨LicenseItem.SPDX "ISC" false, none⟩, ⟨8, 11⟩⟩,
            ExprNode.Op Operator.And], "MIT AND ISC"⟩ ∧
    wellFormedRPN
      (⟨[ExprNode.Req ⟨⟨LicenseItem.SPDX "MIT" false, none⟩, ⟨0, 3⟩⟩,
         ExprNode.Req ⟨⟨LicenseItem.SPDX "ISC" false, none⟩, ⟨8, 11⟩⟩,
         ExprNode.Op Operator.And], "MIT AND ISC"⟩ : Expression).expr :=
  ⟨by decide,
   (claim_C2 "MIT AND ISC"
      [⟨Token.SPDX "MIT", ⟨0, 3⟩⟩, ⟨Token.And, ⟨4, 7⟩⟩, ⟨Token.SPDX "ISC", ⟨8, 11⟩⟩]
      ⟨[ExprNode.Req ⟨⟨LicenseItem.SPDX "MIT" false, none⟩, ⟨0, 3⟩⟩,
        ExprNode.Req ⟨⟨LicenseItem.SPDX "ISC" false, none⟩, ⟨8, 11⟩⟩,
        ExprNode.Op Operator.And], "MIT AND ISC"⟩ (by decide)).1⟩

/-- Claim C3 (amended).  After an accepted `)`, the next token may be `AND`,
`OR` or another `)` (the close-paren arm accepts a previous `)`, which is
how nested parentheses close; it then fails with an unopened-parentheses
error only if no open-paren marker is on the stack).  Any token *other*
than `AND`, `OR`, `)` fails with an unexpected-token error whose
expected-set is exactly `["AND", "OR"]`, carrying the offending token's
span. -/
theorem claim_C3 (original : String) (lt : LexedToken) (rest : List LexedToken)
    (s : List OpAndSpan) (q : List ExprNode)
    (h : notAfterClose lt.token = true) :
    parseLoop original (lt :: rest) (some Token.CloseParen) s q =
      Except.error ⟨original, lt.span, Reason.Unexpected ["AND", "OR"]⟩ := by
  obtain ⟨tok, span⟩ := lt
  cases tok <;>
    simp_all [notAfterClose, parseLoop, make_err_for_token, expectedFor,
      isAtomStart, isAtomEnd, isWithPrev]

/-- Claim C3 witness: an `(` right after `)` is rejected with the
expected-set `["AND", "OR"]` at the `(`'s span. -/
theorem claim_C3_witness :
    notAfterClose Token.OpenParen = true ∧
    parseLoop "x" [⟨Token.OpenParen, ⟨2, 3⟩⟩] (some Token.CloseParen) [] [] =
      Except.error ⟨"x", ⟨2, 3⟩, Reason.Unexpected ["AND", "OR"]⟩ :=
  ⟨by decide, claim_C3 "x" ⟨Token.OpenParen, ⟨2, 3⟩⟩ [] [] [] (by decide)⟩

/-- Claim C3 counterexample to the claim as stated: a `)` immediately
following another `)` is *not* rejected with an unexpected-token error —
`"((MIT))"` parses successfully (nested parentheses), and even the
unmatched `"(MIT))"` fails with an unopened-parentheses error, not with
the claimed unexpected-token/{AND, OR} error. -/
theorem claim_C3_counterexample :
    parse "((MIT))" =
      Except.ok ⟨[ExprNode.Req ⟨⟨LicenseItem.SPDX "MIT" false, none⟩, ⟨2, 5⟩⟩], "((MIT))"⟩ ∧
    parse "(MIT))" = Except.error ⟨"(MIT))", ⟨5, 6⟩, Reason.UnopenedParens⟩ := by
  decide

/-- Claim C4.  For every parser-accepted expression and every predicate,
failure-tracking evaluation succeeds exactly when plain evaluation is
true; and when plain evaluation is false it returns exactly the
requirement nodes whose predicate verdict was false, in postfix traversal
order (including ones absorbed by a true sibling under `OR`). -/
theorem claim_C4 (original : String) (toks : List LexedToken) (e : Expression)
    (allow : LicenseReq → Bool) (h : parseTokens original toks = Except.ok e) :
    (e.evaluate_with_failures allow = some (Except.ok ()) ↔
      e.evaluate allow = some true) ∧
    (e.evaluate allow = some false →
      e.evaluate_with_failures allow =
        some (Except.error ((requirementsList e.expr).filter fun r => !allow r.req))) := by
  have hwf := parseTokens_wellFormed original toks e h
  obtain ⟨b, hb⟩ := wf_evalStep_single e.expr hwf allow
  have heval : e.evaluate allow = some b := by simp [Expression.evaluate, hb]
  have hewf : e.evaluate_with_failures allow =
      some (if b then Except.ok ()
        else Except.error ((requirementsList e.expr).filter fun r => !allow r.req)) := by
    simp only [Expression.evaluate_with_failures, evalStepF_eq, hb, Option.map_some']
    cases b <;> simp
  constructor
  · cases b <;> simp [heval, hewf]
  · intro hf
    rw [heval] at hf
    cases b
    · simpa using hewf
    · simp at hf

/-- Claim C4 witness: the spec's example `"(MIT AND Apache-2.0) OR 0BSD"`
with `MIT → true`, `Apache-2.0 → false`, `0BSD → false` evaluates to
false with failure list `[Apache-2.0, 0BSD]` (MIT excluded). -/
theorem claim_C4_witness :
    parseTokens "(MIT AND Apache-2.0) OR 0BSD"
        [⟨Token.OpenParen, ⟨0, 1⟩⟩, ⟨Token.SPDX "MIT", ⟨1, 4⟩⟩, ⟨Token.And, ⟨5, 8⟩⟩,
         ⟨Token.SPDX "Apache-2.0", ⟨9, 19⟩⟩, ⟨Token.CloseParen, ⟨19, 20⟩⟩,
         ⟨Token.Or, ⟨21, 23⟩⟩, ⟨Token.SPDX "0BSD", ⟨24, 28⟩⟩]
      = Except.ok
          ⟨[ExprNode.Req ⟨⟨LicenseItem.SPDX "MIT" false, none⟩, ⟨1, 4⟩⟩,
            ExprNode.Req ⟨⟨LicenseItem.SPDX "Apache-2.0" false, none⟩, ⟨9, 19⟩⟩,
            ExprNode.Op Operator.And,
            ExprNode.Req ⟨⟨LicenseItem.SPDX "0BSD" false, none⟩, ⟨24, 28⟩⟩,
            ExprNode.Op Operator.Or], "(MIT AND Apache-2.0) OR 0BSD"⟩ ∧
    Expression.evaluate_with_failures
        ⟨[ExprNode.Req ⟨⟨LicenseItem.SPDX "MIT" false, none⟩, ⟨1, 4⟩⟩,
          ExprNode.Req ⟨⟨LicenseItem.SPDX "Apache-2.0" false, none⟩, ⟨9, 19⟩⟩,
          ExprNode.Op Operator.And,
          ExprNode.Req ⟨⟨LicenseItem.SPDX "0BSD" false, none⟩, ⟨24, 28⟩⟩,
          ExprNode.Op Operator.Or], "(MIT AND Apache-2.0) OR 0BSD"⟩
        (fun r => r.license == LicenseItem.SPDX "MIT" false)
      = some (Except.error
          [⟨⟨LicenseItem.SPDX "Apache-2.0" false, none⟩, ⟨9, 19⟩⟩,
           ⟨⟨LicenseItem.SPDX "0BSD" false, none⟩, ⟨24, 28⟩⟩]) := by
  refine ⟨by decide, ?_⟩
  have h := (claim_C4 "(MIT AND Apache-2.0) OR 0BSD"
      [⟨Token.OpenParen, ⟨0, 1⟩⟩, ⟨Token.SPDX "MIT", ⟨1, 4⟩⟩, ⟨Token.And, ⟨5, 8⟩⟩,
       ⟨Token.SPDX "Apache-2.0", ⟨9, 19⟩⟩, ⟨Token.CloseParen, ⟨19, 20⟩⟩,
       ⟨Token.Or, ⟨21, 23⟩⟩, ⟨Token.SPDX "0BSD", ⟨24, 28⟩⟩]
      ⟨[ExprNode.Req ⟨⟨LicenseItem.SPDX "MIT" false, none⟩, ⟨1, 4⟩⟩,
        ExprNode.Req ⟨⟨LicenseItem.SPDX "Apache-2.0" false, none⟩, ⟨9, 19⟩⟩,
        ExprNode.Op Operator.And,
        ExprNode.Req ⟨⟨LicenseItem.SPDX "0BSD" false, none⟩, ⟨24, 28⟩⟩,
        ExprNode.Op Operator.Or], "(MIT AND Apache-2.0) OR 0BSD"⟩
      (fun r => r.license == LicenseItem.SPDX "MIT" false)
      (by decide)).2 (by decide)
  rw [h]
  decide

/-- Claim C5.  For every token stream the parser accepts, `requirements`
yields exactly the license atoms of the stream, in left-to-right source
order (with `+` / exception modifiers applied), and no operator nodes. -/
theorem claim_C5 (original : String) (toks : List LexedToken) (e : Expression)
    (h : parseTokens original toks = Except.ok e) :
    e.requirements = atomsOf toks [] := by
  unfold parseTokens at h
  split at h
  · rename_i q hq
    have hr := parseLoop_reqs original toks none [] [] q hq
    obtain rfl : (⟨q, original⟩ : Expression) = e := by simpa using h
    simpa [Expression.requirements, requirementsList] using hr
  · simp at h

/-- Claim C5 witness: `"MIT OR Apache-2.0 WITH LLVM-exception"` yields
exactly its two atoms, in source order, with the exception attached to
the second. -/
theorem claim_C5_witness :
    parseTokens "MIT OR Apache-2.0 WITH LLVM-exception"
        [⟨Token.SPDX "MIT", ⟨0, 3⟩⟩, ⟨Token.Or, ⟨4, 6⟩⟩,
         ⟨Token.SPDX "Apache-2.0", ⟨7, 17⟩⟩, ⟨Token.With, ⟨18, 22⟩⟩,
         ⟨Token.Exception "LLVM-exception", ⟨23, 37⟩⟩]
      = Except.ok
          ⟨[ExprNode.Req ⟨⟨LicenseItem.SPDX "MIT" false, none⟩, ⟨0, 3⟩⟩,
            ExprNode.Req ⟨⟨LicenseItem.SPDX "Apache-2.0" false, some "LLVM-exception"⟩, ⟨7, 17⟩⟩,
            ExprNode.Op Operator.Or], "MIT OR Apache-2.0 WITH LLVM-exception"⟩ ∧
    Expression.requirements
        ⟨[ExprNode.Req ⟨⟨LicenseItem.SPDX "MIT" false, none⟩, ⟨0, 3⟩⟩,
          ExprNode.Req ⟨⟨LicenseItem.SPDX "Apache-2.0" false, some "LLVM-exception"⟩, ⟨7, 17⟩⟩,
          ExprNode.Op Operator.Or], "MIT OR Apache-2.0 WITH LLVM-exception"⟩
      = atomsOf
          [⟨Token.SPDX "MIT", ⟨0, 3⟩⟩, ⟨Token.Or, ⟨4, 6⟩⟩,
           ⟨Token.SPDX "Apache-2.0", ⟨7, 17⟩⟩, ⟨Token.With, ⟨18, 22⟩⟩,
           ⟨Token.Exception "LLVM-exception", ⟨23, 37⟩⟩] [] ∧
    atomsOf
        [⟨Token.SPDX "MIT", ⟨0, 3⟩⟩, ⟨Token.Or, ⟨4, 6⟩⟩,
         ⟨Token.SPDX "Apache-2.0", ⟨7, 17⟩⟩, ⟨Token.With, ⟨18, 22⟩⟩,
         ⟨Token.Exception "LLVM-exception", ⟨23, 37⟩⟩] []
      = [⟨⟨LicenseItem.SPDX "MIT" false, none⟩, ⟨0, 3⟩⟩,
         ⟨⟨LicenseItem.SPDX "Apache-2.0" false, some "LLVM-exception"⟩, ⟨7, 17⟩⟩] :=
  ⟨by decide,
   claim_C5 "MIT OR Apache-2.0 WITH LLVM-exception"
      [⟨Token.SPDX "MIT", ⟨0, 3⟩⟩, ⟨Token.Or, ⟨4, 6⟩⟩,
       ⟨Token.SPDX "Apache-2.0", ⟨7, 17⟩⟩, ⟨Token.With, ⟨18, 22⟩⟩,
       ⟨Token.Exception "LLVM-exception", ⟨23, 37⟩⟩]
      ⟨[ExprNode.Req ⟨⟨LicenseItem.SPDX "MIT" false, none⟩, ⟨0, 3⟩⟩,
        ExprNode.Req ⟨⟨LicenseItem.SPDX "Apache-2.0" false, some "LLVM-exception"⟩, ⟨7, 17⟩⟩,
        ExprNode.Op Operator.Or], "MIT OR Apache-2.0 WITH LLVM-exception"⟩
      (by decide),
   by decide⟩

/-- Claim C6.  Expression equality is structural over the postfix node
sequence and ignores the original textual form, so redundant parentheses
do not affect it (`parse "MIT OR Apache-2.0"` equals
`parse "(MIT OR (Apache-2.0))"`), while operand order, operator nesting
and suffixes still matter exactly as encoded. -/
theorem claim_C6 :
    (∀ (a b : Expression) (o1 o2 : String),
      Expression.eq ⟨a.expr, o1⟩ ⟨b.expr, o2⟩ = Expression.eq a b) ∧
    parseEq "MIT OR Apache-2.0" "(MIT OR (Apache-2.0))" = some true ∧
    parseEq "MIT OR Apache-2.0" "Apache-2.0 OR MIT" = some false ∧
    parseEq "MIT OR (Apache-2.0 OR ISC)" "(MIT OR Apache-2.0) OR ISC" = some false ∧
    parseEq "MIT OR Apache-2.0" "MIT OR Apache-2.0 WITH LLVM-exception" = some false :=
  ⟨fun _ _ _ _ => rfl, by decide, by decide, by decide, by decide⟩

/-- Claim C7.  The five error scenarios: empty input, dangling operator at
end of input, unclosed `(`, unopened `)`, and two adjacent atoms — each
with the specified error kind and span, and no `Expression` returned
(the result is `Except.error`). -/
theorem claim_C7 :
    parse "" = Except.error ⟨"", ⟨0, 0⟩, Reason.Empty⟩ ∧
    parse "MIT AND" =
      Except.error ⟨"MIT AND", ⟨7, 7⟩, Reason.Unexpected ["<license>", "("]⟩ ∧
    parse "(MIT" = Except.error ⟨"(MIT", ⟨0, 1⟩, Reason.UnclosedParens⟩ ∧
    parse "MIT)" = Except.error ⟨"MIT)", ⟨3, 4⟩, Reason.UnopenedParens⟩ ∧
    parse "MIT MIT" =
      Except.error ⟨"MIT MIT", ⟨4, 7⟩, Reason.Unexpected ["AND", "OR", "WITH", ")", "+"]⟩ := by
  decide

/-- Claim C8.  Every parser-accepted expression evaluates to true under the
constant-true predicate and to false under the constant-false
predicate. -/
theorem claim_C8 (original : String) (toks : List LexedToken) (e : Expression)
    (h : parseTokens original toks = Except.ok e) :
    e.evaluate (fun _ => true) = some true ∧ e.evaluate (fun _ => false) = some false := by
  have hwf := parseTokens_wellFormed original toks e h
  constructor
  · obtain ⟨st2, h2, hl2, hc2⟩ := evalStep_const true e.expr 0 1 [] hwf rfl (by simp)
    cases st2 with
    | nil => simp at hl2
    | cons b t =>
      cases t with
      | nil =>
        have hbt : b = true := hc2 b (by simp)
        simp [Expression.evaluate, h2, hbt]
      | cons c t2 => simp at hl2
  · obtain ⟨st2, h2, hl2, hc2⟩ := evalStep_const false e.expr 0 1 [] hwf rfl (by simp)
    cases st2 with
    | nil => simp at hl2
    | cons b t =>
      cases t with
      | nil =>
        have hbt : b = false := hc2 b (by simp)
        simp [Expression.evaluate, h2, hbt]
      | cons c t2 => simp at hl2

/-- Claim C8 witness: a concrete accepted expression under both constant
predicates. -/
theorem claim_C8_witness :
    parseTokens "MIT OR ISC"
        [⟨Token.SPDX "MIT", ⟨0, 3⟩⟩, ⟨Token.Or, ⟨4, 6⟩⟩, ⟨Token.SPDX "ISC", ⟨7, 10⟩⟩]
      = Except.ok
          ⟨[ExprNode.Req ⟨⟨LicenseItem.SPDX "MIT" false, none⟩, ⟨0, 3⟩⟩,
            ExprNode.Req ⟨⟨LicenseItem.SPDX "ISC" false, none⟩, ⟨7, 10⟩⟩,
            ExprNode.Op Operator.Or], "MIT OR ISC"⟩ ∧
    (Expression.evaluate
        ⟨[ExprNode.Req ⟨⟨LicenseItem.SPDX "MIT" false, none⟩, ⟨0, 3⟩⟩,
          ExprNode.Req ⟨⟨LicenseItem.SPDX "ISC" false, none⟩, ⟨7, 10⟩⟩,
          ExprNode.Op Operator.Or], "MIT OR ISC"⟩ (fun _ => true) = some true ∧
     Expression.evaluate
        ⟨[ExprNode.Req ⟨⟨LicenseItem.SPDX "MIT" false, none⟩, ⟨0, 3⟩⟩,
          ExprNode.Req ⟨⟨LicenseItem.SPDX "ISC" false, none⟩, ⟨7, 10⟩⟩,
          ExprNode.Op Operator.Or], "MIT OR ISC"⟩ (fun _ => false) = some false) :=
  ⟨by decide,
   claim_C8 "MIT OR ISC"
      [⟨Token.SPDX "MIT", ⟨0, 3⟩⟩, ⟨Token.Or, ⟨4, 6⟩⟩, ⟨Token.SPDX "ISC", ⟨7, 10⟩⟩]
      ⟨[ExprNode.Req ⟨⟨LicenseItem.SPDX "MIT" false, none⟩, ⟨0, 3⟩⟩,
        ExprNode.Req ⟨⟨LicenseItem.SPDX "ISC" false, none⟩, ⟨7, 10⟩⟩,
        ExprNode.Op Operator.Or], "MIT OR ISC"⟩ (by decide)⟩

/-- Claim C9.  `"MIT+"` parses to a single requirement with or-later true
(and no operator nodes); a `+` immediately after a license-reference atom
is a grammar (unexpected-token) error. -/
theorem claim_C9 :
    parse "MIT+" =
      Except.ok ⟨[ExprNode.Req ⟨⟨LicenseItem.SPDX "MIT" true, none⟩, ⟨0, 3⟩⟩], "MIT+"⟩ ∧
    parse "LicenseRef-foo+" =
      Except.error ⟨"LicenseRef-foo+", ⟨14, 15⟩,
        Reason.Unexpected ["AND", "OR", "WITH", ")"]⟩ := by
  decide

/-- Claim C10.  For a parser-accepted expression, whenever failure-tracking
evaluation returns the failure list (overall result false), that list is
non-empty, and some requirement's predicate verdict was indeed false. -/
theorem claim_C10 (original : String) (toks : List LexedToken) (e : Expression)
    (allow : LicenseReq → Bool) (l : List ExpressionReq)
    (hp : parseTokens original toks = Except.ok e)
    (h : e.evaluate_with_failures allow = some (Except.error l)) :
    l ≠ [] ∧ ∃ r ∈ e.requirements, allow r.req = false := by
  have hwf := parseTokens_wellFormed original toks e hp
  obtain ⟨b, hb⟩ := wf_evalStep_single e.expr hwf allow
  rw [Expression.evaluate_with_failures, evalStepF_eq, hb, Option.map_some'] at h
  cases b
  · have hl : l = (requirementsList e.expr).filter fun r => !allow r.req := by
      simpa using h.symm
    have hne : l ≠ [] := by
      intro hnil
      have hf : (requirementsList e.expr).filter (fun r => !allow r.req) = [] := by
        rw [← hl, hnil]
      have hall : ∀ r ∈ requirementsList e.expr, allow r.req = true := by
        intro r hr
        have hnr := List.filter_eq_nil_iff.mp hf r hr
        simpa using hnr
      have hTrue := evalStep_allTrue allow e.expr [] [false] hall (by simp) hb
      exact absurd (hTrue false (by simp)) (by simp)
    refine ⟨hne, ?_⟩
    obtain ⟨r0, hr0⟩ := List.exists_mem_of_ne_nil l hne
    rw [hl] at hr0
    have hm := List.mem_filter.mp hr0
    exact ⟨r0, hm.1, by simpa using hm.2⟩
  · simp at h

/-- Claim C10 witness: a single always-rejected requirement produces the
non-empty failure list `[MIT]`. -/
theorem claim_C10_witness :
    parseTokens "MIT" [⟨Token.SPDX "MIT", ⟨0, 3⟩⟩]
      = Except.ok ⟨[ExprNode.Req ⟨⟨LicenseItem.SPDX "MIT" false, none⟩, ⟨0, 3⟩⟩], "MIT"⟩ ∧
    Expression.evaluate_with_failures
        ⟨[ExprNode.Req ⟨⟨LicenseItem.SPDX "MIT" false, none⟩, ⟨0, 3⟩⟩], "MIT"⟩
        (fun _ => false)
      = some (Except.error [⟨⟨LicenseItem.SPDX "MIT" false, none⟩, ⟨0, 3⟩⟩]) ∧
    ([(⟨⟨LicenseItem.SPDX "MIT" false, none⟩, ⟨0, 3⟩⟩ : ExpressionReq)] ≠ [] ∧
     ∃ r ∈ Expression.requirements
        ⟨[ExprNode.Req ⟨⟨LicenseItem.SPDX "MIT" false, none⟩, ⟨0, 3⟩⟩], "MIT"⟩,
       (fun _ => false : LicenseReq → Bool) r.req = false) :=
  ⟨by decide, by decide,
   claim_C10 "MIT" [⟨Token.SPDX "MIT", ⟨0, 3⟩⟩]
      ⟨[ExprNode.Req ⟨⟨LicenseItem.SPDX "MIT" false, none⟩, ⟨0, 3⟩⟩], "MIT"⟩
      (fun _ => false) [⟨⟨LicenseItem.SPDX "MIT" false, none⟩, ⟨0, 3⟩⟩]
      (by decide) (by decide)⟩

end Spdx
